import Mathlib

/-!
Verification development for the document chunking pipeline in
`src/document_ingestion/processing/chunking.py`.

The Python code is shallowly embedded: Python strings are modelled as
`List Char` (`Str`), the opaque tiktoken tokenizer as an arbitrary
function `tc : Str → Nat`, `uuid.uuid4()` as a deterministic fresh-id
supply threaded through the pipeline (no property here depends on the
identifier values), and the Anthropic completion service as an oracle
of per-attempt outcomes.  Fallible code (the division by zero in
`Validator.validate_completeness`) returns `Option`.
-/

/-- Characters removed by Python `str.strip()` (ASCII whitespace). -/
def isPySpace (c : Char) : Bool :=
  c = ' ' || c = '\t' || c = '\n' || c = '\r' || c = '\x0b' || c = '\x0c'

/-- Python strings are modelled as lists of characters. -/
abbrev Str := List Char

/-- Drop leading characters satisfying `isPySpace`. -/
def stripLeading : Str → Str
  | [] => []
  | c :: rest => if isPySpace c then stripLeading rest else c :: rest

/-- Python `s.strip()`: drop leading and trailing whitespace. -/
def pyStrip (s : Str) : Str :=
  (stripLeading ((stripLeading s).reverse)).reverse

/-- The literal sentence delimiter `". "` used by `split_large_chunk`. -/
def delim : Str := ['.', ' ']

/-- Python `content.split('. ')`: split on non-overlapping occurrences of
the two-character delimiter, scanning left to right. -/
def splitDot : Str → List Str
  | [] => [[]]
  | '.' :: ' ' :: rest => [] :: splitDot rest
  | c :: rest =>
    match splitDot rest with
    | [] => [[c]]
    | t :: ts => (c :: t) :: ts

/-- A sample token counter (the tokenizer is opaque in the source; the
theorems quantify over it, and concrete instances use character count). -/
def tcLen : Str → Nat := List.length

/-- The `Segment` produced by `HeadingCollector` (the Python dict with keys
`main_heading`, `content`, `level`). -/
structure Segment where
  main_heading : Str
  content : Str
  level : Nat
deriving DecidableEq

/-- The final chunk record with its five fields. -/
structure Chunk where
  chunk_id : Nat
  source_url : Str
  main_heading : Str
  content : Str
  summary : Str
deriving DecidableEq

/-- The greedy sentence-accumulation loop of
`ChunkProcessor.split_large_chunk` (lines 121-132): `cur` is
`current_content`, the result is the `splits` list in emission order.
Note the budget test is `count_tokens(current_content + sentence)`,
without the delimiter, exactly as in the source. -/
def slcLoop (tc : Str → Nat) (maxT : Nat) : List Str → Str → List Str
  | [], cur => if cur = [] then [] else [pyStrip cur]
  | s :: rest, cur =>
    if tc (cur ++ s) > maxT then
      if cur = [] then pyStrip s :: slcLoop tc maxT rest []
      else pyStrip cur :: slcLoop tc maxT rest (s ++ delim)
    else slcLoop tc maxT rest (cur ++ s ++ delim)

/-- The split contents produced by `split_large_chunk` from a content
string: split into sentences on `". "`, then run the greedy loop. -/
def splitContents (tc : Str → Nat) (maxT : Nat) (content : Str) : List Str :=
  slcLoop tc maxT (splitDot content) []

/-- The `" (Part N)"` suffix appended to split headings. -/
def partLabel (n : Nat) : Str :=
  [' ', '(', 'P', 'a', 'r', 't', ' '] ++ Nat.toDigits 10 n ++ [')']

/-- `ChunkProcessor.split_large_chunk`: wrap each split content into a new
chunk with a fresh id, same source url, and a 1-based part suffix. -/
def split_large_chunk (tc : Str → Nat) (maxT : Nat) (c : Chunk) (fresh : Nat) : List Chunk :=
  ((splitContents tc maxT c.content).enum).map (fun p =>
    { chunk_id := fresh + p.1
      source_url := c.source_url
      main_heading := c.main_heading ++ partLabel (p.1 + 1)
      content := p.2
      summary := [] })

/-- `ChunkProcessor.process_chunk`: build the chunk with stripped content
and empty summary; split when the token count exceeds `max_tokens`. -/
def process_chunk (tc : Str → Nat) (maxT : Nat) (seg : Segment) (url : Str)
    (fresh : Nat) : List Chunk :=
  let processed : Chunk :=
    { chunk_id := fresh
      source_url := url
      main_heading := seg.main_heading
      content := pyStrip seg.content
      summary := [] }
  if tc processed.content > maxT then split_large_chunk tc maxT processed (fresh + 1)
  else [processed]

/-- Block tags distinguished by `HeadingCollector.run`. -/
inductive Tag where
  | h1
  | h2
  | h3
  | other
deriving DecidableEq

/-- A parsed markdown block element: its tag, its `element.text` (used as
heading text) and its serialized form (`etree.tostring(element)`). -/
structure Block where
  tag : Tag
  text : Str
  serialized : Str
deriving DecidableEq

/-- The mutable state of `HeadingCollector`. -/
structure CollectorState where
  chunks : List Segment
  current : Option Segment
  h1_count : Nat
  h2_count : Nat
  h3_count : Nat
deriving DecidableEq

/-- `HeadingCollector.__init__`. -/
def initState : CollectorState := ⟨[], none, 0, 0, 0⟩

/-- Append a block's serialized form to a segment's content. -/
def appendContent (b : Block) (seg : Segment) : Segment :=
  { seg with content := seg.content ++ b.serialized }

/-- Closing the current segment: the `if self.current_chunk:
self.chunks.append(self.current_chunk)` step. -/
def openList : Option Segment → List Segment
  | some c => [c]
  | none => []

/-- One iteration of the loop body of `HeadingCollector.run`. -/
def collectStep (st : CollectorState) (b : Block) : CollectorState :=
  match b.tag with
  | Tag.h1 =>
    { st with
      chunks := st.chunks ++ openList st.current
      current := some { main_heading := b.text, content := [], level := 1 }
      h1_count := st.h1_count + 1 }
  | Tag.h2 =>
    { st with
      chunks := st.chunks ++ openList st.current
      current := some { main_heading := b.text, content := [], level := 2 }
      h2_count := st.h2_count + 1 }
  | Tag.h3 =>
    { st with
      h3_count := st.h3_count + 1
      current := st.current.map (appendContent b) }
  | Tag.other =>
    { st with current := st.current.map (appendContent b) }

/-- `HeadingCollector.run`: walk the block sequence, then close any open
segment at end of input. -/
def collectorRun (blocks : List Block) : CollectorState :=
  let st := blocks.foldl collectStep initState
  { st with chunks := st.chunks ++ openList st.current }

/-- `Validator.validate_completeness`.  `heading_counts` is modelled by the
two numbers `h1` and `h2`.  When the heading counts differ the function
logs an error and returns `False` (`some false`).  Otherwise it computes
`abs(orig_len - proc_len) / orig_len`; when `original_content` is empty
this division raises an unguarded `ZeroDivisionError` (modelled as
`none`); otherwise the 5% comparison only chooses whether a warning is
logged and the function returns `True` (`some true`). -/
def validate_completeness (original_content : Str) (processed_chunks : List Chunk)
    (h1 h2 : Nat) : Option Bool :=
  if h1 + h2 ≠ processed_chunks.length then
    some false
  else
    if original_content.length = 0 then
      none
    else
      some true

/-- One attempt outcome of the external completion service. -/
inductive Outcome where
  | success (text : Str)
  | throttle
  | failure
deriving DecidableEq

/-- The value behaviour of `SummaryGenerator._process_chunk`, driven by the
oracle of successive attempt outcomes: success stores the response text in
`summary`; `RateLimitError` sleeps and retries the same chunk; any other
exception is caught, `summary` is set to the empty string, and the chunk
is returned.  An exhausted oracle (never reached for oracles ending in a
terminal outcome) returns the chunk unchanged. -/
def summarize_attempts : List Outcome → Chunk → Chunk
  | [], c => c
  | o :: rest, c =>
    match o with
    | Outcome.success t => { c with summary := t }
    | Outcome.throttle => summarize_attempts rest c
    | Outcome.failure => { c with summary := [] }

/-- `SummaryGenerator.generate_summaries`: one task per chunk, results
gathered in input order; the service's outcomes for a chunk are a function
of that chunk only. -/
def generate_summaries (oracle : Chunk → List Outcome) (chunks : List Chunk) : List Chunk :=
  chunks.map (fun c => summarize_attempts (oracle c) c)

/-- Semaphore-relevant events of one `_process_chunk` task. -/
inductive Ev where
  | acquire
  | release
  | callStart
  | callEnd
  | sleep
deriving DecidableEq

/-- The event trace of one `SummaryGenerator._process_chunk` task, driven
by the oracle of successive attempt outcomes.  The source enters
`async with semaphore` (acquire), issues the call, and on `RateLimitError`
sleeps and recursively retries *inside* the with-block, whose release
therefore only runs after the recursive call returns. -/
def processTrace : List Outcome → List Ev
  | [] => []
  | o :: rest =>
    Ev.acquire :: Ev.callStart :: Ev.callEnd ::
      ((match o with
        | Outcome.throttle => Ev.sleep :: processTrace rest
        | _ => []) ++ [Ev.release])

/-- Running count of held semaphore slots after one event. -/
def evDelta (n : Nat) : Ev → Nat
  | Ev.acquire => n + 1
  | Ev.release => n - 1
  | _ => n

/-- Final number of held slots after a trace, starting from `n`. -/
def finalHeldFrom : Nat → List Ev → Nat
  | n, [] => n
  | n, e :: rest => finalHeldFrom (evDelta n e) rest

/-- Maximum number of simultaneously held slots along a trace. -/
def maxHeldFrom : Nat → List Ev → Nat
  | n, [] => n
  | n, e :: rest => max n (maxHeldFrom (evDelta n e) rest)

/-- Does some sleep event occur while at least one slot is held? -/
def sleepWhileHeld : Nat → List Ev → Bool
  | _, [] => false
  | n, e :: rest => (decide (e = Ev.sleep) && decide (1 ≤ n)) || sleepWhileHeld (evDelta n e) rest

/-- Number of attempts made for a given outcome oracle: leading throttles
each cause a retry; the first terminal outcome ends the recursion. -/
def attemptsOf : List Outcome → Nat
  | [] => 0
  | Outcome.throttle :: rest => attemptsOf rest + 1
  | _ :: _ => 1

/-- The per-page chunk assembly loop of `main` (lines 265-267): process
each segment in order, extending the processed list.  The fresh-id
counter advances past every id drawn for a segment's chunks. -/
def processSegments (tc : Str → Nat) (maxT : Nat) (url : Str) :
    List Segment → Nat → List Chunk
  | [], _ => []
  | seg :: rest, fresh =>
    let cs := process_chunk tc maxT seg url fresh
    cs ++ processSegments tc maxT url rest (fresh + 1 + cs.length)

/-- The per-page validation call of `main` (lines 274-276): parse the page
into segments, assemble (and possibly split) chunks, summarize them, then
run `Validator.validate_completeness` against the collector's h1/h2
counts. -/
def mainPageValidation (tc : Str → Nat) (maxT : Nat) (oracle : Chunk → List Outcome)
    (blocks : List Block) (content url : Str) (fresh : Nat) : Option Bool :=
  let collector := collectorRun blocks
  let processed := processSegments tc maxT url collector.chunks fresh
  let summarized := generate_summaries oracle processed
  validate_completeness content summarized collector.h1_count collector.h2_count

/-- `size_ranges` of `main` (line 307); `float('inf')` is modelled as
`none`. -/
def size_ranges : List (Nat × Option Nat) :=
  [(0, some 500), (501, some 1000), (1001, some 1500), (1501, some 2000), (2001, none)]

/-- Membership test of the histogram of `main` (line 308):
`start <= size < end`. -/
def inSizeRange (size : Nat) (r : Nat × Option Nat) : Bool :=
  decide (r.1 ≤ size) &&
    (match r.2 with
     | some e => decide (size < e)
     | none => true)

/-- In how many histogram buckets a chunk of `size` characters is counted. -/
def bucketsContaining (size : Nat) : Nat :=
  (size_ranges.filter (inSizeRange size)).length

/-- Join sentence units with the `". "` delimiter (Python
`'. '.join(units)`); used to describe the loop buffer and to restore
delimiter boundaries between emitted splits. -/
def joinDelim : List Str → Str
  | [] => []
  | [u] => u
  | u :: v :: us => u ++ delim ++ joinDelim (v :: us)

/-- The loop buffer corresponding to a pending group of units: empty for
no units, otherwise the units joined by `". "` with one trailing
delimiter (the buffer always ends in `". "`). -/
def curOf : List Str → Str
  | [] => []
  | a :: g => joinDelim (a :: g) ++ delim

/-- The split emitted for a group of units: a buffer flush strips the
buffer (keeping the trailing `'.'` of the delimiter), an empty-buffer
emission strips the single unit alone. -/
def emitOf : List Str × Bool → Str
  | (g, true) => pyStrip (joinDelim g ++ delim)
  | (g, false) => pyStrip (joinDelim g)

/-- Budget facts the loop guarantees for an emitted group: the group is
non-empty; an empty-buffer emission is a single unit whose own token
count exceeds the budget; a buffer flush either is a single unit (begun
unchecked right after a flush) or passed the delimiter-free budget check
on its joined units. -/
def GroupOk (tc : Str → Nat) (maxT : Nat) (p : List Str × Bool) : Prop :=
  p.1 ≠ []
  ∧ (p.2 = false → ∃ u, p.1 = [u] ∧ tc u > maxT)
  ∧ (p.2 = true → p.1.length = 1 ∨ tc (joinDelim p.1) ≤ maxT)

/-- 1 for an open segment, 0 otherwise. -/
def openCount : Option Segment → Nat
  | some _ => 1
  | none => 0

/-- The walk invariant of `HeadingCollector.run`: emitted segments plus
the open one, if any, equal the h1/h2 headings seen so far. -/
def collectInvariant (st : CollectorState) : Prop :=
  st.chunks.length + openCount st.current = st.h1_count + st.h2_count

/-- Concrete content `"abc. de"` (7 characters). -/
def contentC2 : Str := ['a', 'b', 'c', '.', ' ', 'd', 'e']

/-- Concrete chunk holding `contentC2`. -/
def chunkC2 : Chunk := ⟨0, [], ['H'], contentC2, []⟩

/-- Concrete content `"abcde. x"` (8 characters). -/
def contentC3 : Str := ['a', 'b', 'c', 'd', 'e', '.', ' ', 'x']

/-- Concrete chunk holding `contentC3`. -/
def chunkC3 : Chunk := ⟨0, [], ['H'], contentC3, []⟩

/-- A one-heading page whose single segment splits into two chunks under
a budget of 2 tokens: an h1 block followed by a text block serializing to
`"xxxx. yyyy"`. -/
def blocksC1 : List Block :=
  [⟨Tag.h1, ['A'], ['A']⟩, ⟨Tag.other, [], ['x', 'x', 'x', 'x', '.', ' ', 'y', 'y', 'y', 'y']⟩]

/-- A collector state with one open segment. -/
def stOpen : CollectorState := ⟨[], some ⟨['A'], [], 1⟩, 1, 0, 0⟩

/-- A concrete h3 block. -/
def bH3 : Block := ⟨Tag.h3, ['C'], ['c', 'c']⟩

/-- A concrete non-heading block. -/
def bOther : Block := ⟨Tag.other, [], ['t', 't']⟩

/-- A block sequence with no h1/h2 heading at all. -/
def blocksNoHeading : List Block := [bOther, bH3, bOther]

/-- A concrete segment with non-whitespace content `"hi"`. -/
def segW : Segment := ⟨['A'], ['h', 'i'], 1⟩

/-- A concrete whitespace-only segment. -/
def segEmpty : Segment := ⟨['A'], [' ', ' '], 1⟩

/-- A concrete chunk for summarizer instances. -/
def chunkW : Chunk := ⟨7, ['u'], ['A'], ['h', 'i'], []⟩

/-- C9: the claim says every chunk character length falls in exactly one
histogram bucket and that the boundary sizes 500, 1000, 1500, 2000 land
in the bucket whose label ends with that number.  The code counts with
`start <= size < end` over `(0,500), (501,1000), (1001,1500),
(1501,2000), (2001,inf)`, so those four boundary sizes are counted in no
bucket at all, while neighbouring sizes are counted exactly once — the
code contradicts its own printed bucket labels. -/
theorem size_histogram_boundaries :
    bucketsContaining 499 = 1
    ∧ bucketsContaining 500 = 0
    ∧ bucketsContaining 501 = 1
    ∧ bucketsContaining 1000 = 0
    ∧ bucketsContaining 1500 = 0
    ∧ bucketsContaining 2000 = 0
    ∧ bucketsContaining 2001 = 1 := by
  decide

/-- C10: when the original document content is the empty string and the
heading-count check passes, `validate_completeness` reaches the length
comparison and divides `abs(orig_len - proc_len)` by the zero original
length: the unguarded `ZeroDivisionError` is modelled as `none` (the
function does not return a Boolean). -/
theorem validate_div_zero_on_empty (chunks : List Chunk) (h1 h2 : Nat)
    (h : h1 + h2 = chunks.length) :
    validate_completeness [] chunks h1 h2 = none := by
  simp [validate_completeness, h]

/-- Witness for `validate_div_zero_on_empty` at the empty chunk list. -/
theorem validate_div_zero_on_empty_w :
    validate_completeness [] [] 0 0 = none :=
  validate_div_zero_on_empty [] 0 0 (by decide)

/-- C2 counterexample: for the chunk with content `"abc. de"` (7 tokens
under the length counter, exceeding the budget 6), the emitted sub-chunk
contents are `"abc."` and `"de."`; re-joining them with the `". "`
delimiter restored yields `"abc.. de."`, not the original content — the
flushed buffer keeps the trailing `'.'` added after the budget check. -/
theorem split_reconstruction_cex :
    tcLen chunkC2.content > 6
    ∧ joinDelim ((split_large_chunk tcLen 6 chunkC2 0).map Chunk.content) ≠ chunkC2.content := by
  decide

/-- C3 counterexample: with budget 5 and content `"abcde. x"`, the loop
accepts the unit `"abcde"` (5 tokens, within budget), then flushes the
buffer as `"abcde."` with 6 tokens — an emitted split over the budget
that is not a single unit alone exceeding it (no unit of the content
exceeds 5 tokens), because the `'.'` of the delimiter is appended after
the delimiter-free budget comparison. -/
theorem split_budget_cex :
    ¬ ∀ s ∈ splitContents tcLen 5 contentC3,
        tcLen s ≤ 5
        ∨ ∃ u ∈ splitDot contentC3, tcLen u > 5 ∧ (s = pyStrip u ∨ s = pyStrip (u ++ delim)) := by
  decide

/-- C4 counterexample: for a task whose first call throttles and whose
retry succeeds, the trace of `_process_chunk` contains a backoff sleep
performed while the semaphore slot is still held, and the retry acquires
a second slot on top of the held one (two slots held at once) — the
retry does not re-enter the acquisition discipline afresh. -/
theorem retry_holds_slot_cex :
    sleepWhileHeld 0 (processTrace [Outcome.throttle, Outcome.failure]) = true
    ∧ maxHeldFrom 0 (processTrace [Outcome.throttle, Outcome.failure]) = 2 := by
  decide

/-- C8 counterexample: a segment whose content is whitespace-only strips
to the empty string, stays within any budget, and is returned by
`process_chunk` as an accepted chunk with empty content — the claimed
non-emptiness invariant fails. -/
theorem chunk_empty_content_cex :
    ¬ ∀ c ∈ process_chunk tcLen 1200 segEmpty [] 0, c.content ≠ [] := by
  decide

/-- C1 counterexample: for the page `blocksC1` (one h1 heading whose
segment content `"xxxx. yyyy"` splits into two chunks under budget 2),
the pre-split segment count equals the h1+h2 count, yet the completeness
check of `main` returns `False` and logs an error, because it compares
the heading count against the post-split chunk count (2), not the
segment count (1). -/
theorem completeness_check_presplit_cex :
    (collectorRun blocksC1).chunks.length
        = (collectorRun blocksC1).h1_count + (collectorRun blocksC1).h2_count
    ∧ mainPageValidation tcLen 2 (fun _ => []) blocksC1 [] [] 0 = some false := by
  decide

/-- One collector step preserves the walk invariant. -/
theorem collect_step_inv (st : CollectorState) (b : Block)
    (h : collectInvariant st) : collectInvariant (collectStep st b) := by
  rcases b with ⟨tag, text, ser⟩
  cases tag <;> cases hcur : st.current <;>
    simp_all [collectInvariant, collectStep, openCount, openList] <;> omega

/-- Folding the collector over any block list preserves the invariant. -/
theorem collect_foldl_inv (blocks : List Block) :
    ∀ st : CollectorState, collectInvariant st →
      collectInvariant (blocks.foldl collectStep st) := by
  induction blocks with
  | nil => intro st h; simpa using h
  | cons b rest ih => intro st h; exact ih _ (collect_step_inv st b h)

/-- `openList` has length `openCount`. -/
theorem openList_length (o : Option Segment) : (openList o).length = openCount o := by
  cases o <;> rfl

/-- C5: for every ordered block sequence, the walk invariant holds at the
end of the fold (emitted segments plus the open one, if any, equal the
h1/h2 headings seen), and hence the number of segments emitted by
`HeadingCollector.run` equals its h1 count plus its h2 count. -/
theorem segment_count_eq_heading_count (blocks : List Block) :
    collectInvariant (blocks.foldl collectStep initState)
    ∧ (collectorRun blocks).chunks.length
        = (collectorRun blocks).h1_count + (collectorRun blocks).h2_count := by
  have hinv := collect_foldl_inv blocks initState
    (by simp [collectInvariant, initState, openCount])
  refine ⟨hinv, ?_⟩
  have := hinv
  unfold collectInvariant at this
  simp [collectorRun, List.length_append, openList_length]
  omega

/-- Folding over blocks containing no h1/h2 heading keeps the segment
list unchanged and never opens a segment. -/
theorem no_heading_foldl (blocks : List Block) :
    ∀ st : CollectorState,
      (∀ b ∈ blocks, b.tag ≠ Tag.h1 ∧ b.tag ≠ Tag.h2) →
      st.current = none →
      (blocks.foldl collectStep st).current = none
      ∧ (blocks.foldl collectStep st).chunks = st.chunks := by
  induction blocks with
  | nil => intro st _ hcur; exact ⟨hcur, rfl⟩
  | cons b rest ih =>
    intro st hb hcur
    have hbt := hb b (by simp)
    have hstep : (collectStep st b).current = none ∧ (collectStep st b).chunks = st.chunks := by
      rcases b with ⟨tag, text, ser⟩
      cases tag <;> simp_all [collectStep]
    have hrest := ih (collectStep st b) (fun x hx => hb x (by simp [hx])) hstep.1
    simp only [List.foldl_cons]
    exact ⟨hrest.1, by rw [hrest.2, hstep.2]⟩

/-- C6: a level-3 heading block never opens or closes a segment — it only
appends its serialized form to the open segment's content when one
exists; any block that is not a level-1/2 heading leaves the collector
without an open segment exactly as it was (its content is silently
dropped); consequently a block sequence with no level-1/2 heading yields
zero segments. -/
theorem h3_and_dropped_blocks :
    (∀ (st : CollectorState) (b : Block), b.tag = Tag.h3 →
        (collectStep st b).chunks = st.chunks
        ∧ (collectStep st b).current = st.current.map (appendContent b))
    ∧ (∀ (st : CollectorState) (b : Block),
        st.current = none → b.tag ≠ Tag.h1 → b.tag ≠ Tag.h2 →
        (collectStep st b).chunks = st.chunks ∧ (collectStep st b).current = none)
    ∧ (∀ blocks : List Block,
        (∀ b ∈ blocks, b.tag ≠ Tag.h1 ∧ b.tag ≠ Tag.h2) →
        (collectorRun blocks).chunks = []) := by
  refine ⟨?_, ?_, ?_⟩
  · intro st b hb
    simp [collectStep, hb]
  · intro st b hcur h1 h2
    rcases b with ⟨tag, text, ser⟩
    cases tag <;> simp_all [collectStep]
  · intro blocks hb
    have h := no_heading_foldl blocks initState hb rfl
    show (blocks.foldl collectStep initState).chunks
        ++ openList (blocks.foldl collectStep initState).current = []
    rw [h.1, h.2]
    rfl

/-- Witness for `h3_and_dropped_blocks` at concrete states and blocks. -/
theorem h3_and_dropped_blocks_w :
    ((collectStep stOpen bH3).chunks = stOpen.chunks
      ∧ (collectStep stOpen bH3).current = stOpen.current.map (appendContent bH3))
    ∧ ((collectStep initState bOther).chunks = initState.chunks
      ∧ (collectStep initState bOther).current = none)
    ∧ (collectorRun blocksNoHeading).chunks = [] :=
  ⟨h3_and_dropped_blocks.1 stOpen bH3 (by decide),
   h3_and_dropped_blocks.2.1 initState bOther (by decide) (by decide) (by decide),
   h3_and_dropped_blocks.2.2 blocksNoHeading (by decide)⟩

/-- After any number of throttled attempts, a non-throttling failure
leaves the chunk unchanged except for `summary`, which is set to the
empty string. -/
theorem summarize_throttle_then_failure (pre : List Outcome) (c : Chunk)
    (hpre : ∀ o ∈ pre, o = Outcome.throttle) :
    summarize_attempts (pre ++ [Outcome.failure]) c = { c with summary := [] } := by
  induction pre with
  | nil => rfl
  | cons o pre' ih =>
    have ho := hpre o (by simp)
    subst ho
    simpa [summarize_attempts] using ih (fun x hx => hpre x (by simp [hx]))

/-- C7: a chunk whose enrichment call fails with a non-throttling error
(after any number of throttling retries) is returned with `summary` set
to the empty string and every other field unchanged; and the batch is
not aborted: `generate_summaries` returns one result per input chunk, in
order, each depending only on that chunk and its own oracle. -/
theorem failure_keeps_chunk (pre : List Outcome) (c : Chunk)
    (oracle : Chunk → List Outcome) (chunks : List Chunk) (i : Nat)
    (hpre : ∀ o ∈ pre, o = Outcome.throttle) :
    summarize_attempts (pre ++ [Outcome.failure]) c = { c with summary := [] }
    ∧ (generate_summaries oracle chunks).length = chunks.length
    ∧ (generate_summaries oracle chunks)[i]? =
        (chunks[i]?).map (fun ch => summarize_attempts (oracle ch) ch) := by
  refine ⟨summarize_throttle_then_failure pre c hpre, ?_, ?_⟩
  · simp [generate_summaries]
  · simp [generate_summaries, List.getElem?_map]

/-- Witness for `failure_keeps_chunk`: one throttled retry then a
failure, in a two-chunk batch. -/
theorem failure_keeps_chunk_w :
    summarize_attempts ([Outcome.throttle] ++ [Outcome.failure]) chunkW
        = { chunkW with summary := [] }
    ∧ (generate_summaries (fun _ => [Outcome.failure]) [chunkW, chunkC2]).length
        = [chunkW, chunkC2].length
    ∧ (generate_summaries (fun _ => [Outcome.failure]) [chunkW, chunkC2])[0]? =
        ([chunkW, chunkC2][0]?).map
          (fun ch => summarize_attempts ((fun _ => [Outcome.failure]) ch) ch) :=
  failure_keeps_chunk [Outcome.throttle] chunkW (fun _ => [Outcome.failure])
    [chunkW, chunkC2] 0 (by decide)

/-- Final held count composes over trace concatenation. -/
theorem finalHeldFrom_append (n : Nat) (xs ys : List Ev) :
    finalHeldFrom n (xs ++ ys) = finalHeldFrom (finalHeldFrom n xs) ys := by
  induction xs generalizing n with
  | nil => rfl
  | cons e xs ih => simp [finalHeldFrom, ih]

/-- The running maximum is at least the starting count. -/
theorem le_maxHeldFrom (n : Nat) (tr : List Ev) : n ≤ maxHeldFrom n tr := by
  cases tr with
  | nil => exact Nat.le_refl n
  | cons e rest => exact Nat.le_max_left _ _

/-- The maximum held count over a concatenation. -/
theorem maxHeldFrom_append (n : Nat) (xs ys : List Ev) :
    maxHeldFrom n (xs ++ ys)
      = max (maxHeldFrom n xs) (maxHeldFrom (finalHeldFrom n xs) ys) := by
  induction xs generalizing n with
  | nil =>
    simp [maxHeldFrom, finalHeldFrom, Nat.max_eq_right (le_maxHeldFrom n ys)]
  | cons e xs ih =>
    simp [maxHeldFrom, finalHeldFrom, ih, Nat.max_assoc]

/-- A `_process_chunk` task releases every slot it acquired: the held
count returns to its starting value. -/
theorem processTrace_final (outs : List Outcome) :
    ∀ n : Nat, finalHeldFrom n (processTrace outs) = n := by
  induction outs with
  | nil => intro n; rfl
  | cons o rest ih =>
    intro n
    cases o with
    | throttle =>
      simp [processTrace, finalHeldFrom, evDelta, finalHeldFrom_append, ih]
    | success t => simp [processTrace, finalHeldFrom, evDelta]
    | failure => simp [processTrace, finalHeldFrom, evDelta]

/-- The peak number of slots held by one task equals its number of
attempts: every throttled retry stacks one more held slot. -/
theorem processTrace_max (outs : List Outcome) :
    ∀ n : Nat, maxHeldFrom n (processTrace outs) = n + attemptsOf outs := by
  induction outs with
  | nil => intro n; simp [processTrace, maxHeldFrom, attemptsOf]
  | cons o rest ih =>
    intro n
    cases o with
    | throttle =>
      simp [processTrace, maxHeldFrom, evDelta, attemptsOf, maxHeldFrom_append,
            processTrace_final, ih, finalHeldFrom]
      omega
    | success t =>
      simp [processTrace, maxHeldFrom, evDelta, attemptsOf, finalHeldFrom]
    | failure =>
      simp [processTrace, maxHeldFrom, evDelta, attemptsOf, finalHeldFrom]

/-- C4 amended: in the trace of one `_process_chunk` task, every acquired
slot is released before the task returns, but a throttled retry recurses
inside the semaphore block: the peak number of simultaneously held slots
equals the number of attempts (one extra slot per retry), and whenever
the first call throttles, the backoff sleep happens while the slot is
still held — the retry does not re-enter the acquisition discipline
afresh. -/
theorem semaphore_trace_discipline (outs : List Outcome) :
    finalHeldFrom 0 (processTrace outs) = 0
    ∧ maxHeldFrom 0 (processTrace outs) = attemptsOf outs
    ∧ ∀ rest : List Outcome,
        sleepWhileHeld 0 (processTrace (Outcome.throttle :: rest)) = true := by
  refine ⟨processTrace_final outs 0, by simpa using processTrace_max outs 0, ?_⟩
  intro rest
  simp [processTrace, sleepWhileHeld, evDelta]

/-- Appending one unit to a non-empty join inserts one delimiter. -/
theorem joinDelim_append_single (g : List Str) (s : Str) (hg : g ≠ []) :
    joinDelim (g ++ [s]) = joinDelim g ++ delim ++ s := by
  induction g with
  | nil => exact absurd rfl hg
  | cons a t ih =>
    cases t with
    | nil => simp [joinDelim]
    | cons b t' =>
      have ih' := ih (by simp)
      simp only [List.cons_append] at ih' ⊢
      simp [joinDelim, ih', List.append_assoc]

/-- The buffer of a non-empty pending group. -/
theorem curOf_cons (a : Str) (t : List Str) :
    curOf (a :: t) = joinDelim (a :: t) ++ delim := rfl

/-- The buffer of a non-empty pending group is non-empty. -/
theorem curOf_ne_nil (a : Str) (t : List Str) : curOf (a :: t) ≠ [] := by
  simp [curOf_cons, delim]

/-- The checked string `current_content + sentence` is the delimiter-join
of the pending units with the new unit. -/
theorem curOf_append (g : List Str) (s : Str) :
    curOf g ++ s = joinDelim (g ++ [s]) := by
  cases g with
  | nil => simp [curOf, joinDelim]
  | cons a t =>
    rw [curOf_cons, joinDelim_append_single (a :: t) s (by simp)]

/-- Accepting a unit extends the buffer by the unit and a delimiter. -/
theorem curOf_snoc (g : List Str) (s : Str) :
    curOf (g ++ [s]) = curOf g ++ s ++ delim := by
  cases g with
  | nil => simp [curOf, joinDelim]
  | cons a t =>
    rw [List.cons_append, curOf_cons, ← List.cons_append,
        joinDelim_append_single (a :: t) s (by simp), curOf_cons]

/-- Structural invariant of the greedy loop of `split_large_chunk`: from
a pending group `g` (single unit, or one whose delimiter-free join passed
the budget check), the emitted splits are exactly the emissions of an
ordered grouping of `g` followed by the remaining units, each group
non-empty and satisfying `GroupOk`. -/
theorem slcLoop_groups (tc : Str → Nat) (maxT : Nat) (sents : List Str) :
    ∀ g : List Str,
      (g = [] ∨ g.length = 1 ∨ tc (joinDelim g) ≤ maxT) →
      ∃ gs : List (List Str × Bool),
        slcLoop tc maxT sents (curOf g) = gs.map emitOf
        ∧ (gs.map Prod.fst).join = g ++ sents
        ∧ ∀ p ∈ gs, GroupOk tc maxT p := by
  induction sents with
  | nil =>
    intro g hg
    cases g with
    | nil => exact ⟨[], by simp [slcLoop, curOf], by simp, by simp⟩
    | cons a t =>
      refine ⟨[(a :: t, true)], ?_, by simp, ?_⟩
      · have hne2 : ¬ (joinDelim (a :: t) = [] ∧ delim = []) := by simp [delim]
        simp [slcLoop, hne2, emitOf, curOf_cons]
      · intro p hp
        simp only [List.mem_singleton] at hp
        subst hp
        simp only [GroupOk]
        refine ⟨by simp, by simp, fun _ => ?_⟩
        rcases hg with hg | hg | hg
        · exact absurd hg (by simp)
        · exact Or.inl hg
        · exact Or.inr hg
  | cons s rest ih =>
    intro g hg
    by_cases hb : tc (curOf g ++ s) > maxT
    · cases g with
      | nil =>
        obtain ⟨gs, e1, e2, e3⟩ := ih [] (Or.inl rfl)
        refine ⟨([s], false) :: gs, ?_, ?_, ?_⟩
        · have hb' : tc ([] ++ s) > maxT := hb
          simp only [curOf] at e1 hb' ⊢
          simp only [List.nil_append] at hb'
          simp [slcLoop, hb', emitOf, joinDelim, e1]
        · simp [e2]
        · intro p hp
          rcases List.mem_cons.mp hp with hp | hp
          · subst hp
            simp only [GroupOk]
            refine ⟨by simp, fun _ => ⟨s, rfl, ?_⟩, by simp⟩
            simpa using hb
          · exact e3 p hp
      | cons a t =>
        obtain ⟨gs, e1, e2, e3⟩ := ih [s] (Or.inr (Or.inl (by simp)))
        refine ⟨(a :: t, true) :: gs, ?_, ?_, ?_⟩
        · have hcur : curOf [s] = s ++ delim := rfl
          rw [hcur] at e1
          have hb2 : maxT < tc (joinDelim (a :: t) ++ (delim ++ s)) := by
            simpa [curOf_cons, List.append_assoc] using hb
          have hne2 : ¬ (joinDelim (a :: t) = [] ∧ delim = []) := by simp [delim]
          simp [slcLoop, hb2, hne2, emitOf, curOf_cons, e1, List.append_assoc]
        · simp [e2]
        · intro p hp
          rcases List.mem_cons.mp hp with hp | hp
          · subst hp
            simp only [GroupOk]
            refine ⟨by simp, by simp, fun _ => ?_⟩
            rcases hg with hg | hg | hg
            · exact absurd hg (by simp)
            · exact Or.inl hg
            · exact Or.inr hg
          · exact e3 p hp
    · have hle : tc (joinDelim (g ++ [s])) ≤ maxT := by
        rw [← curOf_append]
        omega
      obtain ⟨gs, e1, e2, e3⟩ := ih (g ++ [s]) (Or.inr (Or.inr hle))
      refine ⟨gs, ?_, ?_, e3⟩
      · rw [curOf_snoc] at e1
        have e1x : slcLoop tc maxT rest (curOf g ++ (s ++ delim)) = List.map emitOf gs := by
          rw [← List.append_assoc]
          exact e1
        have hb2 : ¬ maxT < tc (curOf g ++ s) := hb
        simp [slcLoop, hb2, e1x]
      · rw [e2]
        simp

/-- `enumFrom` then projecting the second components gives back the list. -/
theorem enumFrom_map_snd {α : Type} (n : Nat) (l : List α) :
    (l.enumFrom n).map Prod.snd = l := by
  induction l generalizing n with
  | nil => rfl
  | cons a t ih => simp [List.enumFrom, ih]

/-- The contents of the chunks built by `split_large_chunk` are exactly
the split contents of the loop. -/
theorem split_large_chunk_contents (tc : Str → Nat) (maxT : Nat) (c : Chunk) (fresh : Nat) :
    (split_large_chunk tc maxT c fresh).map Chunk.content
      = splitContents tc maxT c.content := by
  unfold split_large_chunk
  rw [List.map_map]
  have hcomp : (Chunk.content ∘ fun p : Nat × Str =>
      ({ chunk_id := fresh + p.1, source_url := c.source_url,
         main_heading := c.main_heading ++ partLabel (p.1 + 1),
         content := p.2, summary := [] } : Chunk)) = Prod.snd := by
    funext p
    rfl
  rw [hcomp]
  exact enumFrom_map_snd 0 (splitContents tc maxT c.content)

/-- C2 amended: for every chunk whose content exceeds `max_tokens`, the
sub-chunks emitted by `split_large_chunk` cover the sentence units of
the original content exactly, in order, with no unit duplicated or
dropped: their contents are the emissions of an ordered grouping of
`splitDot content`, each group non-empty, each sub-chunk the stripped
`". "`-join of its group (with the trailing delimiter retained on
buffer-flushed groups, which is why re-joining the sub-chunks with
`". "` does not reproduce the original content verbatim). -/
theorem split_partition_no_loss (tc : Str → Nat) (maxT : Nat) (c : Chunk) (fresh : Nat)
    (hbig : tc c.content > maxT) :
    ∃ gs : List (List Str × Bool),
      (split_large_chunk tc maxT c fresh).map Chunk.content = gs.map emitOf
      ∧ (gs.map Prod.fst).join = splitDot c.content
      ∧ ∀ p ∈ gs, p.1 ≠ [] := by
  obtain ⟨gs, e1, e2, e3⟩ := slcLoop_groups tc maxT (splitDot c.content) [] (Or.inl rfl)
  refine ⟨gs, ?_, by simpa using e2, fun p hp => ((e3 p hp).1 : p.1 ≠ [])⟩
  rw [split_large_chunk_contents]
  simpa [splitContents, curOf] using e1

/-- Witness for `split_partition_no_loss`: content `"abc. de"` with the
length counter and budget 6. -/
theorem split_partition_no_loss_w :
    ∃ gs : List (List Str × Bool),
      (split_large_chunk tcLen 6 chunkC2 0).map Chunk.content = gs.map emitOf
      ∧ (gs.map Prod.fst).join = splitDot chunkC2.content
      ∧ ∀ p ∈ gs, p.1 ≠ [] :=
  split_partition_no_loss tcLen 6 chunkC2 0 (by decide)

/-- C3 amended: the budget comparison is made on the buffer plus the unit
without the delimiter, so each emitted split is, up to stripping, a run
of units whose delimiter-join passed the check (`tc ≤ max_tokens`) —
except a run consisting of a single unit, which is emitted unchecked:
either alone on an empty buffer (and then its own token count exceeds
the budget) or as a buffer begun right after a flush.  The emitted split
itself additionally carries the trailing delimiter `'.'`, so it can
exceed `max_tokens` by the delimiter's tokens. -/
theorem split_budget_structure (tc : Str → Nat) (maxT : Nat) (c : Chunk) (fresh : Nat)
    (hbig : tc c.content > maxT) :
    ∃ gs : List (List Str × Bool),
      (split_large_chunk tc maxT c fresh).map Chunk.content = gs.map emitOf
      ∧ (gs.map Prod.fst).join = splitDot c.content
      ∧ ∀ p ∈ gs, GroupOk tc maxT p := by
  obtain ⟨gs, e1, e2, e3⟩ := slcLoop_groups tc maxT (splitDot c.content) [] (Or.inl rfl)
  refine ⟨gs, ?_, by simpa using e2, e3⟩
  rw [split_large_chunk_contents]
  simpa [splitContents, curOf] using e1

/-- Witness for `split_budget_structure`: content `"abcde. x"` with the
length counter and budget 5. -/
theorem split_budget_structure_w :
    ∃ gs : List (List Str × Bool),
      (split_large_chunk tcLen 5 chunkC3 0).map Chunk.content = gs.map emitOf
      ∧ (gs.map Prod.fst).join = splitDot chunkC3.content
      ∧ ∀ p ∈ gs, GroupOk tcLen 5 p :=
  split_budget_structure tcLen 5 chunkC3 0 (by decide)

/-- C1 amended: the completeness check of `main` compares the h1+h2 count
recorded during segmentation against the number of chunks it is given —
the post-split, summarized chunk list, not the pre-split segment count —
and it reports failure (logging an error) exactly when the heading count
differs from that post-split chunk count. -/
theorem completeness_check_counts_postsplit (tc : Str → Nat) (maxT : Nat)
    (oracle : Chunk → List Outcome) (blocks : List Block) (content url : Str) (fresh : Nat) :
    mainPageValidation tc maxT oracle blocks content url fresh = some false
      ↔ (collectorRun blocks).h1_count + (collectorRun blocks).h2_count
          ≠ (processSegments tc maxT url (collectorRun blocks).chunks fresh).length := by
  simp only [mainPageValidation, validate_completeness, generate_summaries,
    List.length_map]
  split
  · next hcond => exact iff_of_true rfl hcond
  · next hcond =>
      refine iff_of_false ?_ hcond
      split <;> simp

/-- C8 amended: every chunk returned by `process_chunk` has content of
stripped form; when the segment's stripped content is non-empty and
within the token budget, the returned chunk's content is non-empty (a
whitespace-only segment, by contrast, is accepted with empty content). -/
theorem chunk_content_trimmed_nonempty (tc : Str → Nat) (maxT : Nat) (seg : Segment)
    (url : Str) (fresh : Nat)
    (hne : pyStrip seg.content ≠ [])
    (hfit : tc (pyStrip seg.content) ≤ maxT) :
    (∀ c ∈ process_chunk tc maxT seg url fresh, ∃ w, c.content = pyStrip w)
    ∧ ∀ c ∈ process_chunk tc maxT seg url fresh, c.content ≠ [] := by
  have hsplit : ¬ tc (pyStrip seg.content) > maxT := by omega
  simp [process_chunk, hsplit]
  exact fun hx => hne hx

/-- Witness for `chunk_content_trimmed_nonempty`: the segment with
content `"hi"`, budget 1200 under the length counter. -/
theorem chunk_content_trimmed_nonempty_w :
    (∀ c ∈ process_chunk tcLen 1200 segW [] 0, ∃ w, c.content = pyStrip w)
    ∧ ∀ c ∈ process_chunk tcLen 1200 segW [] 0, c.content ≠ [] :=
  chunk_content_trimmed_nonempty tcLen 1200 segW [] 0 (by decide) (by decide)
